import Mathlib

/-!
Verification of the locset/region resolution algebra (`arbor/morph/locset.cpp`),
the integration-domain partition (`fvm_intdom`, specified in §4.4 of the design
document and exercised by `test/unit/test_fvm_lowered.cpp`), and mechanism
parameter updates (`backends/gpu/mechanism.cpp`).

Positions and lengths (C++ `double`) are embedded as rationals; machine floats
are treated as exact arithmetic.  Fallible C++ code (functions that `throw`)
is embedded as `Except Err`.
-/

namespace ArborSpec

/-- A location on a morphology: branch id plus proportional position
(C++ `mlocation` from `primitives.hpp`). -/
structure MLoc where
  branch : Nat
  pos : ℚ
deriving DecidableEq, Repr

/-- A cable: branch id plus proximal/distal proportional positions
(C++ `mcable`). -/
structure MCable where
  branch : Nat
  prox : ℚ
  dist : ℚ
deriving DecidableEq, Repr

/-- Morphology interface used by resolution: branch count and parent
relation (`mnpos` parent embedded as `none`). -/
structure Morph where
  num_branches : Nat
  parent : Nat → Option Nat

/-- Total order on locations, lexicographic by (branch, position): the
C++ `operator<` on `mlocation`. -/
def locLe (a b : MLoc) : Prop :=
  a.branch < b.branch ∨ (a.branch = b.branch ∧ a.pos ≤ b.pos)

/-- Strict version of the location order. -/
def locLt (a b : MLoc) : Prop :=
  a.branch < b.branch ∨ (a.branch = b.branch ∧ a.pos < b.pos)

instance : DecidableRel locLe := fun a b =>
  inferInstanceAs (Decidable (_ ∨ _))

instance : DecidableRel locLt := fun a b =>
  inferInstanceAs (Decidable (_ ∨ _))

/-- Boolean form of `locLe`, used for sorting. -/
def locLeB (a b : MLoc) : Bool := decide (locLe a b)

/-- Boolean form of `locLt`, used for `std::lower_bound` comparisons. -/
def locLtB (a b : MLoc) : Bool := decide (locLt a b)

theorem locLe_refl (a : MLoc) : locLe a a := Or.inr ⟨rfl, le_refl _⟩

theorem locLe_trans {a b c : MLoc} (h1 : locLe a b) (h2 : locLe b c) :
    locLe a c := by
  rcases h1 with h1 | ⟨e1, p1⟩ <;> rcases h2 with h2 | ⟨e2, p2⟩
  · exact Or.inl (Nat.lt_trans h1 h2)
  · exact Or.inl (e2 ▸ h1)
  · exact Or.inl (e1 ▸ h2)
  · exact Or.inr ⟨e1.trans e2, p1.trans p2⟩

theorem locLe_antisymm {a b : MLoc} (h1 : locLe a b) (h2 : locLe b a) :
    a = b := by
  rcases h1 with h1 | ⟨e1, p1⟩ <;> rcases h2 with h2 | ⟨e2, p2⟩
  · exact absurd h1 (Nat.lt_asymm h2)
  · exact absurd h1 (e2 ▸ Nat.lt_irrefl _)
  · exact absurd h2 (e1 ▸ Nat.lt_irrefl _)
  · cases a; cases b
    simp only [MLoc.mk.injEq]
    exact ⟨e1, le_antisymm p1 p2⟩

theorem locLe_total (a b : MLoc) : locLe a b ∨ locLe b a := by
  rcases Nat.lt_trichotomy a.branch b.branch with h | h | h
  · exact Or.inl (Or.inl h)
  · rcases le_total a.pos b.pos with hp | hp
    · exact Or.inl (Or.inr ⟨h, hp⟩)
    · exact Or.inr (Or.inr ⟨h.symm, hp⟩)
  · exact Or.inr (Or.inl h)

instance : IsAntisymm MLoc locLe := ⟨fun _ _ => locLe_antisymm⟩

theorem locLeB_iff (a b : MLoc) : locLeB a b = true ↔ locLe a b := by
  simp [locLeB]

/-- Errors thrown by the embedded code (`morphexcept.hpp` and
`std::logic_error`). -/
inductive Err where
  | invalid_mlocation (l : MLoc) : Err
  | no_such_branch (b : Nat) : Err
  | logic_error (msg : String) : Err
deriving DecidableEq, Repr

/-- Modelled from the spec: `test_invariants(mlocation)` lives in
`primitives.cpp`, which is not part of the sources; per §3/§4.1 a location
is valid iff its proportional position lies in [0,1]. -/
def test_invariants (l : MLoc) : Bool :=
  decide (0 ≤ l.pos) && decide (l.pos ≤ 1)

/-- `ls::assert_valid`: throw `invalid_mlocation` when the invariant check
fails (locset.cpp lines 26-30). -/
def assert_valid (l : MLoc) : Except Err Unit :=
  if test_invariants l then .ok () else .error (.invalid_mlocation l)

/-- `ls::location(branch, pos)`: construct a literal location locset,
validating eagerly (locset.cpp lines 55-59). -/
def ls_location (branch : Nat) (pos : ℚ) : Except Err MLoc := do
  let loc : MLoc := ⟨branch, pos⟩
  let _ ← assert_valid loc
  .ok loc

/-- `ls::location_list(ll)`: construct a literal location-list locset;
the constructor performs no validation (locset.cpp lines 80-82). -/
def ls_location_list (ll : List MLoc) : Except Err (List MLoc) :=
  .ok ll

/-- Resolution of a literal location (locset.cpp lines 61-67): re-validate,
then check the branch id against the morphology. -/
def thingify_location (m : Morph) (l : MLoc) : Except Err (List MLoc) := do
  let _ ← assert_valid l
  if l.branch ≥ m.num_branches then
    .error (.no_such_branch l.branch)
  else
    .ok [l]

/-- Resolution of a literal location list (locset.cpp lines 84-92): check
each branch id only; positions are not re-examined. -/
def thingify_location_list (m : Morph) (ll : List MLoc) :
    Except Err (List MLoc) :=
  if h : ∀ l ∈ ll, l.branch < m.num_branches then
    .ok ll
  else
    .error (.no_such_branch
      (((ll.filter (fun l => decide (l.branch ≥ m.num_branches))).head?).getD
        ⟨0, 0⟩).branch)

/-- `ls::on_branches(pos)`: the constructor performs no validation at all
(locset.cpp lines 157-159). -/
def ls_on_branches (pos : ℚ) : Except Err ℚ :=
  .ok pos

/-- Resolution of `on_branches` (locset.cpp lines 161-170): one location
per branch, in branch-id order, at the stored position. -/
def thingify_on_branches (m : Morph) (pos : ℚ) : List MLoc :=
  (List.range m.num_branches).map (fun b => ⟨b, pos⟩)

/-- Distal endpoint of a cable (`dist_loc`). -/
def dist_loc (c : MCable) : MLoc := ⟨c.branch, c.dist⟩

/-- Proximal endpoint of a cable (`prox_loc`). -/
def prox_loc (c : MCable) : MLoc := ⟨c.branch, c.prox⟩

/-- Walk the parent chain from branch `cur` for at most `fuel` steps,
checking whether branch `a` is reached (so `a` is an ancestor-or-equal
branch of `cur`). -/
def branch_anc_from (m : Morph) (a : Nat) : Nat → Nat → Bool
  | 0, _ => false
  | fuel + 1, cur =>
    if cur = a then true
    else
      match m.parent cur with
      | none => false
      | some q => branch_anc_from m a fuel q

/-- Modelled from the spec: the morphology's tree ancestor partial order on
locations (§4.3 "maxset/minset" and the glossary); the implementation
(`maxset`/`minset` in `morphology.cpp`) is not part of the sources.
`loc_ancestor m x y` holds when `x` lies on the path from the root to `y`:
same branch with `x.pos ≤ y.pos`, or `x.branch` a proper branch-ancestor
of `y.branch`. -/
def loc_ancestor (m : Morph) (x y : MLoc) : Bool :=
  if x.branch = y.branch then decide (x.pos ≤ y.pos)
  else
    match m.parent y.branch with
    | none => false
    | some q => branch_anc_from m x.branch m.num_branches q

/-- Modelled from the spec: reduce a candidate point set to its maximal
elements under the ancestor order — "discard any point that is an ancestor
of another point in the candidate set" (§4.3). -/
def maxset (m : Morph) (L : List MLoc) : List MLoc :=
  L.filter (fun l => ! L.any (fun l2 => decide (l ≠ l2) && loc_ancestor m l l2))

/-- Modelled from the spec: reduce a candidate point set to its minimal
elements under the ancestor order — "discard any point that is a descendant
of another point in the candidate set" (§4.3). -/
def minset (m : Morph) (L : List MLoc) : List MLoc :=
  L.filter (fun l => ! L.any (fun l2 => decide (l ≠ l2) && loc_ancestor m l2 l))

/-- Resolution of `most_distal(region)` (locset.cpp lines 206-213): collect
the distal end of each cable of the resolved region, then take the maxset. -/
def thingify_most_distal (m : Morph) (reg_cables : List MCable) : List MLoc :=
  maxset m (reg_cables.map dist_loc)

/-- Resolution of `most_proximal(region)` (locset.cpp lines 230-238):
collect the proximal end of each cable, then take the minset. -/
def thingify_most_proximal (m : Morph) (reg_cables : List MCable) : List MLoc :=
  minset m (reg_cables.map prox_loc)

/-- First index whose element is not `<` the probe: the standard semantics
of `std::lower_bound` over the (sorted) distal-end list used by
`restrict` (locset.cpp line 537); returns the length when no such element
exists (`ends.end()`). -/
def lower_bound_idx (ends : List MLoc) (l : MLoc) : Nat :=
  ends.findIdx (fun e => ! locLtB e l)

/-- The membership test of `restrict` for one location (locset.cpp lines
536-543): find the cable by lower-bound over distal ends; the point belongs
when that cable shares its branch and the position is at least the cable's
proximal position. -/
def restrict_keep (cables : List MCable) (l : MLoc) : Bool :=
  let ends := cables.map dist_loc
  let i := lower_bound_idx ends l
  if h : i < cables.length then
    let c := cables.get ⟨i, h⟩
    decide (c.branch = l.branch) && decide (c.prox ≤ l.pos)
  else false

/-- Resolution of `restrict(locset, region)` (locset.cpp lines 530-546),
with the region already resolved to its cable list. -/
def thingify_restrict (cables : List MCable) (locs : List MLoc) : List MLoc :=
  locs.filter (restrict_keep cables)

/-- Sort a location list in the total (branch, position) order: the
`util::sort` calls in locset.cpp. -/
def sortLocs (L : List MLoc) : List MLoc := L.mergeSort locLeB

/-- Length-from-the-component's-proximal-end, `d_from_prox` in the source
(locset.cpp line 347): the embedding's `integrate_length` from the proximal
point of the component's first cable. -/
def oc_d (ilen : MLoc → MLoc → ℚ) (c0 : MCable) : MLoc → ℚ :=
  fun x => ilen (prox_loc c0) x

/-- Maximal distance from the component's proximal end over its cables'
distal endpoints (`util::max_value`, locset.cpp lines 372-373). -/
def oc_diameter (d : MLoc → ℚ) (comp : List MCable) (c0 : MCable) : ℚ :=
  comp.foldl (fun acc c => max acc (d (dist_loc c))) (d (dist_loc c0))

/-- Target distance `relpos * diameter` (locset.cpp line 375). -/
def oc_target (relpos : ℚ) (ilen : MLoc → MLoc → ℚ) (c0 : MCable)
    (comp : List MCable) : ℚ :=
  relpos * oc_diameter (oc_d ilen c0) comp c0

/-- The straddle-and-interpolate step for one cable (locset.cpp lines
376-385): when the cable's cumulative-length range [d0, d1] straddles the
target `dt`, place a point by linear interpolation within the cable, the
fractional position clamped to at most 1. -/
def oc_try_cable (d : MLoc → ℚ) (dt : ℚ) (c : MCable) : Option MLoc :=
  let d0 := d (prox_loc c)
  let d1 := d (dist_loc c)
  if d0 ≤ dt ∧ dt ≤ d1 then
    some ⟨c.branch,
      min 1 ((if d0 = d1 then 0 else (dt - d0) / (d1 - d0))
        * (c.dist - c.prox) + c.prox)⟩
  else none

/-- The per-component computation of `on_components` (locset.cpp lines
342-388).  `ilen a b` is the embedding's `integrate_length(a, b)`.
The empty-component case is unreachable for real component decompositions
(`arb_assert(!comp.empty())`). -/
def oc_comp_points (relpos : ℚ) (ilen : MLoc → MLoc → ℚ)
    (comp : List MCable) : List MLoc :=
  match comp with
  | [] => []
  | c0 :: _ =>
    let prox := prox_loc c0
    let d := oc_d ilen c0
    if relpos = 0 then [prox]
    else if relpos = 1 then
      (comp.foldl (fun acc c =>
        let x := dist_loc c
        let dd := d x
        if dd > acc.1 then (dd, [x])
        else if dd = acc.1 then (acc.1, acc.2 ++ [x])
        else acc) ((0 : ℚ), [prox])).2
    else
      comp.filterMap (oc_try_cable d (oc_target relpos ilen c0 comp))

/-- Resolution of `on_components(relpos, region)` (locset.cpp lines
334-392).  The out-of-range guard precedes the resolution of the region,
so the region result is passed unevaluated as an `Except`; the component
decomposition (in `morphology.cpp`, not part of the sources) is taken as a
parameter `comps_of`. -/
def thingify_on_components (relpos : ℚ)
    (regres : Except Err (List MCable))
    (comps_of : List MCable → List (List MCable))
    (ilen : MLoc → MLoc → ℚ) : Except Err (List MLoc) :=
  if relpos < 0 ∨ relpos > 1 then .ok []
  else do
    let ext ← regres
    .ok (sortLocs ((comps_of ext).foldl
      (fun L comp => L ++ oc_comp_points relpos ilen comp) []))

/-- C1: the point lists returned by resolving `most_distal(R)` and
`most_proximal(R)` are each pairwise-incomparable under the morphology's
tree ancestor partial order: no returned point is an ancestor (for
`most_distal`) or a descendant (for `most_proximal`) of another returned
point. -/
theorem most_distal_proximal_incomparable (m : Morph) (cables : List MCable) :
    (∀ x ∈ thingify_most_distal m cables, ∀ y ∈ thingify_most_distal m cables,
        x ≠ y → loc_ancestor m x y = false) ∧
    (∀ x ∈ thingify_most_proximal m cables,
        ∀ y ∈ thingify_most_proximal m cables,
        x ≠ y → loc_ancestor m y x = false) := by
  constructor
  · intro x hx y hy hxy
    unfold thingify_most_distal maxset at hx hy
    rw [List.mem_filter] at hx hy
    have hnone := hx.2
    simp only [Bool.not_eq_eq_eq_not, Bool.not_true, List.any_eq_false] at hnone
    have := hnone y hy.1
    simp only [Bool.and_eq_true, decide_eq_true_eq] at this
    by_contra hanc
    rw [Bool.not_eq_false] at hanc
    exact this ⟨hxy, hanc⟩
  · intro x hx y hy hxy
    unfold thingify_most_proximal minset at hx hy
    rw [List.mem_filter] at hx hy
    have hnone := hx.2
    simp only [Bool.not_eq_eq_eq_not, Bool.not_true, List.any_eq_false] at hnone
    have := hnone y hy.1
    simp only [Bool.and_eq_true, decide_eq_true_eq] at this
    by_contra hanc
    rw [Bool.not_eq_false] at hanc
    exact this ⟨hxy, hanc⟩

/-- Morphology with three branches, branches 1 and 2 children of branch 0;
used to instantiate universally quantified theorems. -/
def morphY : Morph := ⟨3, fun b => if b = 0 then none else some 0⟩

/-- Two whole-branch cables on the sibling branches of `morphY`. -/
def cablesY : List MCable := [⟨1, 0, 1⟩, ⟨2, 0, 1⟩]

theorem most_distal_proximal_incomparable_witness :
    loc_ancestor morphY ⟨1, 1⟩ ⟨2, 1⟩ = false ∧
    loc_ancestor morphY ⟨2, 0⟩ ⟨1, 0⟩ = false :=
  ⟨(most_distal_proximal_incomparable morphY cablesY).1
      ⟨1, 1⟩ (by decide) ⟨2, 1⟩ (by decide) (by decide),
   (most_distal_proximal_incomparable morphY cablesY).2
      ⟨1, 0⟩ (by decide) ⟨2, 0⟩ (by decide) (by decide)⟩

/-- C5: for `relpos` outside [0,1], `on_components` resolves to the empty
point list without raising any error — the guard precedes even the
resolution of the region sub-expression. -/
theorem on_components_out_of_range_empty (relpos : ℚ)
    (regres : Except Err (List MCable))
    (comps_of : List MCable → List (List MCable))
    (ilen : MLoc → MLoc → ℚ)
    (h : relpos < 0 ∨ 1 < relpos) :
    thingify_on_components relpos regres comps_of ilen = .ok [] := by
  unfold thingify_on_components
  rw [if_pos]
  exact h

theorem on_components_out_of_range_empty_witness :
    thingify_on_components 2 (.error (.no_such_branch 5)) (fun _ => [])
      (fun _ _ => 0) = .ok [] :=
  on_components_out_of_range_empty 2 (.error (.no_such_branch 5)) (fun _ => [])
    (fun _ _ => 0) (Or.inr (by norm_num))

/-- C6: `restrict` is idempotent — resolving
`restrict(restrict(ls, reg), reg)` gives the same point list as resolving
`restrict(ls, reg)` (both occurrences of `reg` resolve to the same cables
against the same provider). -/
theorem restrict_idempotent (cables : List MCable) (locs : List MLoc) :
    thingify_restrict cables (thingify_restrict cables locs) =
      thingify_restrict cables locs := by
  unfold thingify_restrict
  rw [List.filter_filter]
  simp only [Bool.and_self]

/-- C7 counterexample: constructing a literal location-list whose element
has position 2 (outside [0,1]) does not raise — construction succeeds. -/
theorem location_list_no_eager_validation :
    ls_location_list [⟨0, 2⟩] = .ok [⟨0, 2⟩] := rfl

/-- C7 (amended): a single-location literal with position outside [0,1]
raises `invalid_mlocation` eagerly at construction, while the
location-list literal constructor performs no validation at all. -/
theorem literal_location_validation (b : Nat) (pos : ℚ)
    (h : pos < 0 ∨ 1 < pos) :
    ls_location b pos = .error (.invalid_mlocation ⟨b, pos⟩) ∧
    ∀ ll : List MLoc, ls_location_list ll = .ok ll := by
  refine ⟨?_, fun ll => rfl⟩
  have hinv : test_invariants ⟨b, pos⟩ = false := by
    rcases h with h | h
    · simp [test_invariants, not_le.mpr h]
    · simp [test_invariants, not_le.mpr h]
  simp [ls_location, assert_valid, hinv, Bind.bind, Except.bind]

theorem literal_location_validation_witness :
    ls_location 0 2 = .error (.invalid_mlocation ⟨0, 2⟩) ∧
    ls_location_list [] = .ok ([] : List MLoc) :=
  ⟨(literal_location_validation 0 2 (Or.inr (by norm_num))).1,
   (literal_location_validation 0 2 (Or.inr (by norm_num))).2 []⟩

/-- C10: `on_branches(p)` performs no validation of the position: the
constructor always succeeds, and resolution returns one location per
branch with position exactly `p`, with no range check anywhere. -/
theorem on_branches_no_validation (p : ℚ) (m : Morph) :
    ls_on_branches p = .ok p ∧
    (thingify_on_branches m p).length = m.num_branches ∧
    (∀ b, b < m.num_branches → MLoc.mk b p ∈ thingify_on_branches m p) ∧
    (∀ l ∈ thingify_on_branches m p, l.pos = p ∧ l.branch < m.num_branches) := by
  refine ⟨rfl, by simp [thingify_on_branches], ?_, ?_⟩
  · intro b hb
    simp only [thingify_on_branches, List.mem_map, List.mem_range]
    exact ⟨b, hb, rfl⟩
  · intro l hl
    simp only [thingify_on_branches, List.mem_map, List.mem_range] at hl
    obtain ⟨b, hb, rfl⟩ := hl
    exact ⟨rfl, hb⟩

/-- Morphology with two branches for concrete instantiations. -/
def morphTwo : Morph := ⟨2, fun b => if b = 0 then none else some 0⟩

theorem on_branches_no_validation_witness :
    ls_on_branches 2 = .ok 2 ∧ MLoc.mk 1 2 ∈ thingify_on_branches morphTwo 2 :=
  ⟨(on_branches_no_validation 2 morphTwo).1,
   (on_branches_no_validation 2 morphTwo).2.2.1 1 (by decide)⟩

/-- Mechanism instance state seen by `set_parameter`: the declared field
table (field name to current per-instance value array) and the instance
width (`width_`). -/
structure MechState where
  fields : List (String × List ℚ)
  width : Nat
deriving DecidableEq, Repr

/-- `util::value_by_key` over the field table: first entry with the given
key. -/
def find_field (fields : List (String × List ℚ)) (key : String) :
    Option (List ℚ) :=
  (fields.find? (fun p => p.1 == key)).map Prod.snd

/-- `mechanism::set_parameter` (gpu/mechanism.cpp lines 133-148): look the
key up in the declared field table; with an unknown key or a value array
whose length differs from the instance width, throw `std::logic_error`;
otherwise copy the values into the field (the copy is skipped when the
width is zero). -/
def set_parameter (s : MechState) (key : String) (values : List ℚ) :
    Except Err MechState :=
  if (s.fields.find? (fun p => p.1 == key)).isSome then
    if values.length ≠ s.width then
      .error (.logic_error "internal error: mechanism parameter size mismatch")
    else if 0 < s.width then
      .ok ⟨s.fields.map (fun p => if p.1 == key then (p.1, values) else p),
        s.width⟩
    else
      .ok s
  else
    .error (.logic_error "internal error: no such mechanism parameter")

theorem find_field_update (fields : List (String × List ℚ)) (key : String)
    (values : List ℚ)
    (h : (fields.find? (fun p => p.1 == key)).isSome) :
    find_field (fields.map (fun p => if p.1 == key then (p.1, values) else p))
      key = some values := by
  induction fields with
  | nil => simp at h
  | cons a t ih =>
    simp only [List.map_cons]
    by_cases hk : (a.1 == key) = true
    · rw [if_pos hk]
      unfold find_field
      rw [List.find?_cons_of_pos _ (by simpa using hk)]
      rfl
    · rw [if_neg hk]
      have ht : (t.find? (fun p => p.1 == key)).isSome := by
        rw [List.find?_cons_of_neg (p := fun q : String × List ℚ => q.1 == key) t hk] at h
        exact h
      unfold find_field
      rw [List.find?_cons_of_neg (p := fun q : String × List ℚ => q.1 == key) _ hk]
      exact ih ht

/-- C9: `set_parameter(key, values)` raises an internal logic error when
the key is not in the declared field table, raises an internal logic error
when the value array length differs from the instance width, and with a
declared key and matching length succeeds, preserving the width and
storing the values in that field. -/
theorem set_parameter_spec (s : MechState) (key : String) (values : List ℚ) :
    ((s.fields.find? (fun p => p.1 == key)) = none →
      set_parameter s key values =
        .error (.logic_error "internal error: no such mechanism parameter")) ∧
    ((s.fields.find? (fun p => p.1 == key)).isSome → values.length ≠ s.width →
      set_parameter s key values =
        .error (.logic_error
          "internal error: mechanism parameter size mismatch")) ∧
    ((s.fields.find? (fun p => p.1 == key)).isSome → values.length = s.width →
      ∃ t : MechState, set_parameter s key values = .ok t ∧
        t.width = s.width ∧
        (0 < s.width → find_field t.fields key = some values)) := by
  refine ⟨?_, ?_, ?_⟩
  · intro hnone
    simp [set_parameter, hnone]
  · intro hsome hlen
    simp [set_parameter, hsome, hlen]
  · intro hsome hlen
    by_cases hw : 0 < s.width
    · refine ⟨⟨s.fields.map (fun p => if p.1 == key then (p.1, values) else p),
        s.width⟩, ?_, rfl, fun _ => find_field_update s.fields key values hsome⟩
      simp [set_parameter, hsome, hlen, hw]
    · refine ⟨s, ?_, rfl, fun hc => absurd hc hw⟩
      simp [set_parameter, hsome, hlen, hw]

theorem set_parameter_spec_witness :
    (set_parameter ⟨[("gbar", [0, 0])], 2⟩ "bad" [1, 1] =
      .error (.logic_error "internal error: no such mechanism parameter")) ∧
    (set_parameter ⟨[("gbar", [0, 0])], 2⟩ "gbar" [1] =
      .error (.logic_error
        "internal error: mechanism parameter size mismatch")) ∧
    ∃ t : MechState,
      set_parameter ⟨[("gbar", [0, 0])], 2⟩ "gbar" [1, 1] = .ok t ∧
        t.width = 2 ∧ (0 < 2 → find_field t.fields "gbar" = some [1, 1]) :=
  ⟨(set_parameter_spec ⟨[("gbar", [0, 0])], 2⟩ "bad" [1, 1]).1 (by decide),
   (set_parameter_spec ⟨[("gbar", [0, 0])], 2⟩ "gbar" [1]).2.1 (by decide)
     (by decide),
   (set_parameter_spec ⟨[("gbar", [0, 0])], 2⟩ "gbar" [1, 1]).2.2 (by decide)
     (by decide)⟩

theorem locLt_trans {a b c : MLoc} (h1 : locLt a b) (h2 : locLt b c) :
    locLt a c := by
  rcases h1 with h1 | ⟨e1, p1⟩ <;> rcases h2 with h2 | ⟨e2, p2⟩
  · exact Or.inl (Nat.lt_trans h1 h2)
  · exact Or.inl (e2 ▸ h1)
  · exact Or.inl (e1 ▸ h2)
  · exact Or.inr ⟨e1.trans e2, p1.trans p2⟩

instance : IsTrans MLoc locLt := ⟨fun _ _ _ => locLt_trans⟩

theorem locLt_ne {a b : MLoc} (h : locLt a b) : a ≠ b := by
  rintro rfl
  rcases h with h | ⟨_, h⟩
  · exact Nat.lt_irrefl _ h
  · exact lt_irrefl _ h

theorem locLt_of_le_ne {a b : MLoc} (h1 : locLe a b) (h2 : a ≠ b) :
    locLt a b := by
  rcases h1 with h | ⟨e, p⟩
  · exact Or.inl h
  · refine Or.inr ⟨e, lt_of_le_of_ne p ?_⟩
    intro hpos
    exact h2 (by cases a; cases b; simp_all)

theorem locLeB_trans_bool : ∀ a b c : MLoc,
    locLeB a b = true → locLeB b c = true → locLeB a c = true := by
  intro a b c h1 h2
  rw [locLeB_iff] at h1 h2 ⊢
  exact locLe_trans h1 h2

theorem locLeB_total_bool : ∀ a b : MLoc,
    (locLeB a b || locLeB b a) = true := by
  intro a b
  rcases locLe_total a b with h | h
  · rw [(locLeB_iff a b).mpr h, Bool.true_or]
  · rw [(locLeB_iff b a).mpr h, Bool.or_true]

theorem sortLocs_sorted (L : List MLoc) : List.Sorted locLe (sortLocs L) :=
  (List.sorted_mergeSort locLeB_trans_bool locLeB_total_bool L).imp
    (fun h => (locLeB_iff _ _).mp h)

theorem sortLocs_perm (L : List MLoc) : (sortLocs L).Perm L :=
  List.mergeSort_perm L locLeB

theorem sortLocs_of_sorted {L : List MLoc} (h : List.Sorted locLe L) :
    sortLocs L = L :=
  List.eq_of_perm_of_sorted (sortLocs_perm L) (sortLocs_sorted L) h

/-- Modelled from the spec: `support` canonicalizes a point list — sort in
the total order, then drop adjacent duplicates (§4.3 "sort and deduplicate";
the implementation lives in `primitives.cpp`, not part of the sources). -/
def support_fn (L : List MLoc) : List MLoc :=
  (sortLocs L).destutter (· ≠ ·)

theorem chain'_and {R S : MLoc → MLoc → Prop} :
    ∀ {l : List MLoc}, l.Chain' R → l.Chain' S →
      l.Chain' (fun a b => R a b ∧ S a b)
  | [], _, _ => List.chain'_nil
  | [_], _, _ => List.chain'_singleton _
  | a :: b :: t, hr, hs => by
    rw [List.chain'_cons] at hr hs ⊢
    exact ⟨⟨hr.1, hs.1⟩, chain'_and hr.2 hs.2⟩

theorem support_fn_sorted (L : List MLoc) :
    List.Sorted locLe (support_fn L) :=
  List.Pairwise.sublist (List.destutter_sublist _ _) (sortLocs_sorted L)

theorem support_fn_pairwise_lt (L : List MLoc) :
    List.Pairwise locLt (support_fn L) := by
  have hle : List.Chain' locLe (support_fn L) := (support_fn_sorted L).chain'
  have hne : List.Chain' (· ≠ ·) (support_fn L) :=
    List.destutter_is_chain' _ _
  have hlt : List.Chain' locLt (support_fn L) :=
    (chain'_and hle hne).imp (fun a b h => locLt_of_le_ne h.1 h.2)
  exact List.chain'_iff_pairwise.mp hlt

theorem support_fn_idem (L : List MLoc) :
    support_fn (support_fn L) = support_fn L := by
  show (sortLocs (support_fn L)).destutter (· ≠ ·) = support_fn L
  rw [sortLocs_of_sorted (support_fn_sorted L)]
  exact List.destutter_of_chain' _ _
    ((support_fn_pairwise_lt L).imp (fun h => locLt_ne h)).chain'

/-- Modelled from the spec: `sum` on point lists is multiset concatenation
(§4.3; implementation in `primitives.cpp`, not part of the sources). -/
def sum_fn (L R : List MLoc) : List MLoc := L ++ R

/-- The accumulation loop of `boundary` resolution (locset.cpp lines
261-272): per component, add the single proximal point of its first cable
and the maxset of its distal endpoints.  Components are non-empty
(`arb_assert(!comp.empty())`); an empty component contributes nothing. -/
def boundary_accum (m : Morph) (comps : List (List MCable)) : List MLoc :=
  comps.foldl (fun L comp =>
    match comp with
    | [] => L
    | c0 :: _ =>
      sum_fn (sum_fn L [prox_loc c0]) (maxset m (comp.map dist_loc))) []

/-- Resolution of `boundary(region)` (locset.cpp lines 258-274), with the
component decomposition of the resolved region taken as a parameter (the
`components` routine lives in `morphology.cpp`, not part of the sources):
the accumulated proximal/distal points pass through `support`. -/
def thingify_boundary (m : Morph) (comps : List (List MCable)) : List MLoc :=
  support_fn (boundary_accum m comps)

/-- C3: `boundary(R)` resolves to a point list closed under `support`:
sorted in the total order on locations, with no two equal points — it
equals its own support.  This holds for every morphology and every
component decomposition of the resolved region. -/
theorem boundary_closed_under_support (m : Morph)
    (comps : List (List MCable)) :
    thingify_boundary m comps = support_fn (thingify_boundary m comps) ∧
    List.Sorted locLe (thingify_boundary m comps) ∧
    (thingify_boundary m comps).Nodup := by
  refine ⟨(support_fn_idem (boundary_accum m comps)).symm,
    support_fn_sorted _, ?_⟩
  exact (support_fn_pairwise_lt _).imp (fun h => locLt_ne h)

/-- Physical length along the example component: branch 0 has length 60,
branch 1 (its continuation) length 40, total 100. -/
def lenEx (l : MLoc) : ℚ :=
  if l.branch = 0 then 60 * l.pos else 60 + 40 * l.pos

/-- Example embedding length integration for the 60-then-40 component. -/
def ilenEx (a b : MLoc) : ℚ := lenEx b - lenEx a

/-- The example component: two whole-branch cables, proximal-to-distal, of
lengths 60 then 40. -/
def compEx : List MCable := [⟨0, 0, 1⟩, ⟨1, 0, 1⟩]

/-- C4: for `0 < relpos < 1`, the per-component `on_components` computation
returns exactly one point for each cable whose cumulative-length range
straddles `relpos` times the component's maximal length, placed by linear
length-interpolation within that cable with the fractional position clamped
to at most 1; in particular on a component of total length 100 made of two
cables of length 60 then 40, `relpos = 1/2` gives the point on the first
cable at proportional position 50/60. -/
theorem on_components_interpolation (relpos : ℚ) (ilen : MLoc → MLoc → ℚ)
    (c0 : MCable) (rest : List MCable) (h0 : 0 < relpos) (h1 : relpos < 1) :
    (∀ loc, loc ∈ oc_comp_points relpos ilen (c0 :: rest) ↔
      ∃ c ∈ c0 :: rest,
        (oc_d ilen c0 (prox_loc c) ≤ oc_target relpos ilen c0 (c0 :: rest) ∧
          oc_target relpos ilen c0 (c0 :: rest) ≤ oc_d ilen c0 (dist_loc c)) ∧
        loc = ⟨c.branch,
          min 1 ((if oc_d ilen c0 (prox_loc c) = oc_d ilen c0 (dist_loc c)
              then 0
              else (oc_target relpos ilen c0 (c0 :: rest) -
                  oc_d ilen c0 (prox_loc c)) /
                (oc_d ilen c0 (dist_loc c) - oc_d ilen c0 (prox_loc c)))
            * (c.dist - c.prox) + c.prox)⟩) ∧
    (∀ loc ∈ oc_comp_points relpos ilen (c0 :: rest), loc.pos ≤ 1) ∧
    oc_comp_points (1/2) ilenEx compEx = [⟨0, 5/6⟩] := by
  have hred : oc_comp_points relpos ilen (c0 :: rest) =
      (c0 :: rest).filterMap
        (oc_try_cable (oc_d ilen c0) (oc_target relpos ilen c0 (c0 :: rest))) := by
    simp only [oc_comp_points, if_neg h0.ne', if_neg h1.ne]
  refine ⟨?_, ?_, by
    norm_num [oc_comp_points, compEx, oc_try_cable, oc_target, oc_diameter,
      oc_d, ilenEx, lenEx, prox_loc, dist_loc, List.filterMap_cons, max_def,
      min_def]⟩
  · intro loc
    rw [hred, List.mem_filterMap]
    constructor
    · rintro ⟨c, hc, hf⟩
      unfold oc_try_cable at hf
      by_cases hcond : oc_d ilen c0 (prox_loc c) ≤
            oc_target relpos ilen c0 (c0 :: rest) ∧
          oc_target relpos ilen c0 (c0 :: rest) ≤ oc_d ilen c0 (dist_loc c)
      · rw [if_pos hcond] at hf
        exact ⟨c, hc, hcond, (Option.some_inj.mp hf).symm⟩
      · rw [if_neg hcond] at hf
        exact absurd hf (by simp)
    · rintro ⟨c, hc, hcond, rfl⟩
      refine ⟨c, hc, ?_⟩
      unfold oc_try_cable
      rw [if_pos hcond]
  · intro loc hloc
    rw [hred, List.mem_filterMap] at hloc
    obtain ⟨c, hc, hf⟩ := hloc
    unfold oc_try_cable at hf
    by_cases hcond : oc_d ilen c0 (prox_loc c) ≤
          oc_target relpos ilen c0 (c0 :: rest) ∧
        oc_target relpos ilen c0 (c0 :: rest) ≤ oc_d ilen c0 (dist_loc c)
    · rw [if_pos hcond] at hf
      rw [← Option.some_inj.mp hf]
      exact min_le_left _ _
    · rw [if_neg hcond] at hf
      exact absurd hf (by simp)

theorem on_components_interpolation_witness :
    oc_comp_points (1/2) ilenEx compEx = [⟨0, 5/6⟩] ∧
    MLoc.mk 0 (5/6) ∈ oc_comp_points (1/2) ilenEx compEx := by
  have h := on_components_interpolation (1/2) ilenEx ⟨0, 0, 1⟩ [⟨1, 0, 1⟩]
    (by norm_num) (by norm_num)
  refine ⟨h.2.2, ?_⟩
  rw [show (⟨0, 0, 1⟩ : MCable) :: [⟨1, 0, 1⟩] = compEx from rfl] at h
  rw [h.2.2]
  exact List.mem_singleton.mpr rfl

/-- One-step closure of a vertex set under the (boolean) adjacency
relation: keep the set and add every vertex adjacent to some member. -/
def expandStep {n : Nat} (adj : Fin n → Fin n → Bool) (s : Finset (Fin n)) :
    Finset (Fin n) :=
  s ∪ Finset.univ.filter (fun j => ∃ k ∈ s, adj k j = true)

/-- Vertices reachable from `i`: `n` rounds of one-step closure saturate
the component. -/
def reachSet {n : Nat} (adj : Fin n → Fin n → Bool) (i : Fin n) :
    Finset (Fin n) :=
  (expandStep adj)^[n] {i}

theorem subset_expandStep {n : Nat} (adj : Fin n → Fin n → Bool)
    (s : Finset (Fin n)) : s ⊆ expandStep adj s :=
  Finset.subset_union_left

theorem expandStep_reachSet {n : Nat} (adj : Fin n → Fin n → Bool)
    (i : Fin n) : expandStep adj (reachSet adj i) = reachSet adj i := by
  have key : ∀ k : Nat,
      (expandStep adj)^[k + 1] {i} = (expandStep adj)^[k] {i} ∨
        k + 1 ≤ ((expandStep adj)^[k] {i}).card := by
    intro k
    induction k with
    | zero => exact Or.inr (by simp)
    | succ k ih =>
      by_cases h3 : (expandStep adj)^[k + 1] {i} = (expandStep adj)^[k] {i}
      · left
        rw [Function.iterate_succ_apply', h3,
          ← Function.iterate_succ_apply' (expandStep adj) k {i}]
        exact h3
      · right
        rcases ih with heq | hcard
        · exact absurd heq h3
        · have hsub : (expandStep adj)^[k] {i} ⊆ (expandStep adj)^[k + 1] {i} := by
            rw [Function.iterate_succ_apply']
            exact subset_expandStep adj _
          have hss : (expandStep adj)^[k] {i} ⊂ (expandStep adj)^[k + 1] {i} :=
            ssubset_of_subset_of_ne hsub (fun he => h3 he.symm)
          have := Finset.card_lt_card hss
          omega
  rcases key n with heq | hcard
  · show expandStep adj ((expandStep adj)^[n] {i}) = (expandStep adj)^[n] {i}
    rw [← Function.iterate_succ_apply' (expandStep adj) n {i}]
    exact heq
  · exfalso
    have h1 : ((expandStep adj)^[n] {i}).card ≤ n := by
      simpa using Finset.card_le_univ ((expandStep adj)^[n] {i})
    omega

theorem mem_reachSet_self {n : Nat} (adj : Fin n → Fin n → Bool) (i : Fin n) :
    i ∈ reachSet adj i := by
  have hall : ∀ k, i ∈ (expandStep adj)^[k] {i} := by
    intro k
    induction k with
    | zero => simp
    | succ k ih =>
      rw [Function.iterate_succ_apply']
      exact subset_expandStep adj _ ih
  exact hall n

theorem rtg_of_mem_reachSet {n : Nat} {adj : Fin n → Fin n → Bool}
    {i j : Fin n} (h : j ∈ reachSet adj i) :
    Relation.ReflTransGen (fun a b => adj a b = true) i j := by
  suffices hk : ∀ k, ∀ x : Fin n, x ∈ (expandStep adj)^[k] {i} →
      Relation.ReflTransGen (fun a b => adj a b = true) i x from hk n j h
  intro k
  induction k with
  | zero =>
    intro x hx
    rw [Function.iterate_zero_apply, Finset.mem_singleton] at hx
    subst hx
    exact Relation.ReflTransGen.refl
  | succ k ih =>
    intro x hx
    rw [Function.iterate_succ_apply'] at hx
    unfold expandStep at hx
    rw [Finset.mem_union] at hx
    rcases hx with hx | hx
    · exact ih x hx
    · rw [Finset.mem_filter] at hx
      obtain ⟨-, k2, hk2, hadj⟩ := hx
      exact (ih k2 hk2).tail hadj

theorem mem_reachSet_of_rtg {n : Nat} {adj : Fin n → Fin n → Bool}
    {i j : Fin n}
    (h : Relation.ReflTransGen (fun a b => adj a b = true) i j) :
    j ∈ reachSet adj i := by
  induction h with
  | refl => exact mem_reachSet_self adj i
  | tail hab hbc ih =>
    rw [← expandStep_reachSet adj i]
    unfold expandStep
    rw [Finset.mem_union, Finset.mem_filter]
    right
    exact ⟨Finset.mem_univ _, _, ih, hbc⟩

theorem rtg_symm {n : Nat} {adj : Fin n → Fin n → Bool}
    (hsym : ∀ a b, adj a b = adj b a) {i j : Fin n}
    (h : Relation.ReflTransGen (fun a b => adj a b = true) i j) :
    Relation.ReflTransGen (fun a b => adj a b = true) j i := by
  induction h with
  | refl => exact Relation.ReflTransGen.refl
  | tail hab hbc ih =>
    exact Relation.ReflTransGen.trans
      (Relation.ReflTransGen.single (by rw [hsym]; exact hbc)) ih

theorem reachSet_eq_of_mem {n : Nat} {adj : Fin n → Fin n → Bool}
    (hsym : ∀ a b, adj a b = adj b a) {i j : Fin n}
    (h : j ∈ reachSet adj i) : reachSet adj i = reachSet adj j := by
  have hij := rtg_of_mem_reachSet h
  have hji := rtg_symm hsym hij
  ext x
  constructor
  · intro hx
    exact mem_reachSet_of_rtg (hji.trans (rtg_of_mem_reachSet hx))
  · intro hx
    exact mem_reachSet_of_rtg (hij.trans (rtg_of_mem_reachSet hx))

/-- Representative of a vertex's component: the least index reachable from
it (the component member that appears first in the gid list). -/
def reprOf {n : Nat} (adj : Fin n → Fin n → Bool) (i : Fin n) : Fin n :=
  if h : (reachSet adj i).Nonempty then (reachSet adj i).min' h else i

/-- Deduplicate keeping the first occurrence of each element, preserving
order. -/
def firstDedup {n : Nat} (l : List (Fin n)) : List (Fin n) :=
  l.foldl (fun acc a => if a ∈ acc then acc else acc ++ [a]) []

/-- Component representatives in order of first appearance. -/
def reprList {n : Nat} (adj : Fin n → Fin n → Bool) : List (Fin n) :=
  firstDedup ((List.finRange n).map (reprOf adj))

/-- Modelled from the spec: `fvm_intdom` (its implementation lives in
`fvm_lowered_cell_impl.hpp`, not part of the sources; only its tests are).
Per §4.4 it solves a connected-components problem over the gap-junction
graph restricted to the processed gids, assigning one integration-domain
id per component, ids issued in order of first appearance in the gid list,
deterministically for a given gid ordering.  `intdomOf adj i` is the id of
the `i`-th gid. -/
def intdomOf {n : Nat} (adj : Fin n → Fin n → Bool) (i : Fin n) : Nat :=
  (reprList adj).indexOf (reprOf adj i)

/-- Number of integration domains: the number of distinct components. -/
def numDoms {n : Nat} (adj : Fin n → Fin n → Bool) : Nat :=
  (reprList adj).length

theorem mem_foldl_dedup {n : Nat} (l : List (Fin n)) :
    ∀ (acc : List (Fin n)) (x : Fin n),
      (x ∈ l.foldl (fun acc a => if a ∈ acc then acc else acc ++ [a]) acc ↔
        x ∈ acc ∨ x ∈ l) := by
  induction l with
  | nil =>
    intro acc x
    simp
  | cons a t ih =>
    intro acc x
    simp only [List.foldl_cons]
    by_cases ha : a ∈ acc
    · rw [if_pos ha, ih]
      constructor
      · rintro (hx | hx)
        · exact Or.inl hx
        · exact Or.inr (List.mem_cons_of_mem a hx)
      · rintro (hx | hx)
        · exact Or.inl hx
        · rcases List.mem_cons.mp hx with rfl | hx
          · exact Or.inl ha
          · exact Or.inr hx
    · rw [if_neg ha, ih]
      simp only [List.mem_append, List.mem_singleton, List.mem_cons]
      tauto

theorem reprOf_mem_reprList {n : Nat} (adj : Fin n → Fin n → Bool)
    (i : Fin n) : reprOf adj i ∈ reprList adj := by
  unfold reprList firstDedup
  rw [mem_foldl_dedup]
  right
  exact List.mem_map.mpr ⟨i, List.mem_finRange i, rfl⟩

theorem min_congr_aux {n : Nat} :
    ∀ (s t : Finset (Fin n)) (hs : s.Nonempty) (ht : t.Nonempty),
      s = t → s.min' hs = t.min' ht := by
  rintro s t hs ht rfl
  rfl

theorem reprOf_eq_of_rtg {n : Nat} {adj : Fin n → Fin n → Bool}
    (hsym : ∀ a b, adj a b = adj b a) {i j : Fin n}
    (h : Relation.ReflTransGen (fun a b => adj a b = true) i j) :
    reprOf adj i = reprOf adj j := by
  have hr : reachSet adj i = reachSet adj j :=
    reachSet_eq_of_mem hsym (mem_reachSet_of_rtg h)
  unfold reprOf
  rw [dif_pos ⟨i, mem_reachSet_self adj i⟩, dif_pos ⟨j, mem_reachSet_self adj j⟩]
  exact min_congr_aux _ _ _ _ hr

theorem rtg_reprOf {n : Nat} (adj : Fin n → Fin n → Bool) (i : Fin n) :
    Relation.ReflTransGen (fun a b => adj a b = true) i (reprOf adj i) := by
  apply rtg_of_mem_reachSet
  unfold reprOf
  rw [dif_pos ⟨i, mem_reachSet_self adj i⟩]
  exact Finset.min'_mem _ _

/-- Modelled from the spec: the gap-junction adjacency between the `i`-th
and `j`-th processed cells — one lists the other among its gap-junction
peers (`gap_junctions_on`), symmetrized, and restricted to the processed
gid list by construction. -/
def gjAdj (g : Nat → List Nat) (gids : List Nat)
    (i j : Fin gids.length) : Bool :=
  decide (gids.get j ∈ g (gids.get i)) || decide (gids.get i ∈ g (gids.get j))

theorem gjAdj_symm (g : Nat → List Nat) (gids : List Nat) :
    ∀ a b, gjAdj g gids a b = gjAdj g gids b a := by
  intro a b
  unfold gjAdj
  exact Bool.or_comm _ _

/-- The gap-junction peers of `gap_recipe_0` in
`test/unit/test_fvm_lowered.cpp` (lines 107-128). -/
def recipe0GJ : Nat → List Nat := fun gid =>
  if gid = 0 then [5] else if gid = 2 then [3] else if gid = 3 then [7, 2]
  else if gid = 5 then [0] else if gid = 7 then [3] else []

/-- The gid list of `TEST(fvm_lowered, integration_domains)`. -/
def recipe0Gids : List Nat := [11, 5, 2, 3, 0, 8, 7]

/-- C8: cells of the processed gid list connected transitively by gap
junctions (restricted to those gids) receive one shared integration-domain
id, cells in different components receive distinct ids (the id map is
constant exactly on components), and the model is a pure function of the
recipe and gid ordering; on the `gap_recipe_0` data of
`TEST(fvm_lowered, integration_domains)` it reproduces the expected
4 domains and the id vector {0,1,2,2,1,3,2}. -/
theorem fvm_intdom_partition (g : Nat → List Nat) (gids : List Nat)
    (i j : Fin gids.length) :
    (Relation.ReflTransGen (fun a b => gjAdj g gids a b = true) i j ↔
      intdomOf (gjAdj g gids) i = intdomOf (gjAdj g gids) j) ∧
    numDoms (gjAdj recipe0GJ recipe0Gids) = 4 ∧
    (List.finRange recipe0Gids.length).map
        (intdomOf (gjAdj recipe0GJ recipe0Gids)) =
      [0, 1, 2, 2, 1, 3, 2] := by
  refine ⟨⟨?_, ?_⟩, by decide, by decide⟩
  · intro h
    unfold intdomOf
    rw [reprOf_eq_of_rtg (gjAdj_symm g gids) h]
  · intro h
    have hrepr : reprOf (gjAdj g gids) i = reprOf (gjAdj g gids) j :=
      (List.indexOf_inj (reprOf_mem_reprList _ i)
        (reprOf_mem_reprList _ j)).mp h
    have h1 := rtg_reprOf (gjAdj g gids) i
    have h2 := rtg_reprOf (gjAdj g gids) j
    have h3 : Relation.ReflTransGen (fun a b => gjAdj g gids a b = true)
        (reprOf (gjAdj g gids) i) j := by
      rw [hrepr]
      exact rtg_symm (gjAdj_symm g gids) h2
    exact h1.trans h3

/-- Boolean rational order, used to sort sample positions (`util::sort`). -/
def qLeB (a b : ℚ) : Bool := decide (a ≤ b)

/-- Cumulative length bounds of `util::make_partition` over the region's
cable lengths: `cum lens j` is the sum of the first `j` lengths, so the
`j`-th cable spans `[cum lens j, cum lens (j+1)]`. -/
def cum (lens : List ℚ) (j : Nat) : ℚ := (lens.take j).sum

/-- The `while (e > range.second) range = lengths_part[++cable_idx];` walk
of locset.cpp lines 439-441, with explicit fuel (the C++ relies on the
sample lying within the partition). -/
def advance (lens : List ℚ) (e : ℚ) : Nat → Nat → Nat
  | 0, idx => idx
  | fuel + 1, idx =>
    if cum lens (idx + 1) < e then advance lens e fuel (idx + 1) else idx

/-- The loop body of locset.cpp lines 438-446: for each sample (in
ascending order), advance the cable index until the sample falls in the
current cable's length range, then place the sample on that cable by
linear interpolation. -/
def walkLoop (cables : List MCable) (lens : List ℚ) :
    Nat → List ℚ → List MLoc
  | _, [] => []
  | idx, e :: es =>
    let j := advance lens e lens.length idx
    let c := cables.getD j ⟨0, 0, 0⟩
    let t := (e - cum lens j) / (cum lens (j + 1) - cum lens j)
    ⟨c.branch, c.prox + t * (c.dist - c.prox)⟩ :: walkLoop cables lens j es

/-- Resolution of `uniform(region, left, right, seed)` (locset.cpp lines
411-449).  The counter-based RNG `util::uniform` (util/cbrng.hpp, not part
of the sources) is modelled from the spec as a pure function `u` of the
seed and the draw index with values in [0,1); `elen` is the embedding's
`integrate_length` over a cable; the region has been resolved to its cable
list. -/
def thingify_uniform (cables : List MCable) (elen : MCable → ℚ)
    (u : Nat → Nat → ℚ) (seed left right : Nat) : List MLoc :=
  let lens := cables.map elen
  let total := cum lens lens.length
  let samples := (List.range' left (right + 1 - left)).map
    (fun k => u seed k * total)
  walkLoop cables lens 0 (samples.mergeSort qLeB)

/-- Stateless form of one walk step: the location assigned to sample `e`
when the cable walk starts from index 0. -/
def sampleLoc (cables : List MCable) (lens : List ℚ) (e : ℚ) : MLoc :=
  let j := advance lens e lens.length 0
  let c := cables.getD j ⟨0, 0, 0⟩
  let t := (e - cum lens j) / (cum lens (j + 1) - cum lens j)
  ⟨c.branch, c.prox + t * (c.dist - c.prox)⟩

theorem cum_succ (lens : List ℚ) (j : Nat) (h : j < lens.length) :
    cum lens (j + 1) = cum lens j + lens.get ⟨j, h⟩ := by
  unfold cum
  rw [List.take_succ, List.sum_append]
  have hj : lens[j]? = some (lens.get ⟨j, h⟩) := by
    rw [List.getElem?_eq_getElem h]
    simp
  rw [hj]
  simp

theorem cum_of_le (lens : List ℚ) {k : Nat} (h : lens.length ≤ k) :
    cum lens k = cum lens lens.length := by
  unfold cum
  rw [List.take_of_length_le h, List.take_of_length_le (le_refl _)]

theorem cum_le_succ (lens : List ℚ) (hpos : ∀ x ∈ lens, 0 ≤ x) (j : Nat) :
    cum lens j ≤ cum lens (j + 1) := by
  by_cases h : j < lens.length
  · rw [cum_succ lens j h]
    have := hpos _ (List.get_mem lens j h)
    linarith
  · rw [cum_of_le lens (Nat.le_of_not_lt h),
      cum_of_le lens (le_trans (Nat.le_of_not_lt h) (Nat.le_succ j))]

theorem cum_mono (lens : List ℚ) (hpos : ∀ x ∈ lens, 0 ≤ x) {j k : Nat}
    (h : j ≤ k) : cum lens j ≤ cum lens k := by
  induction k with
  | zero =>
    rw [Nat.le_zero.mp h]
  | succ k ih =>
    rcases Nat.lt_or_ge j (k + 1) with h2 | h2
    · exact le_trans (ih (Nat.lt_succ_iff.mp h2)) (cum_le_succ lens hpos k)
    · rw [Nat.le_antisymm h h2]

theorem advance_spec (lens : List ℚ) (e : ℚ) :
    ∀ (fuel idx : Nat), e ≤ cum lens (idx + fuel + 1) →
      idx ≤ advance lens e fuel idx ∧
      e ≤ cum lens (advance lens e fuel idx + 1) ∧
      ∀ j, idx ≤ j → j < advance lens e fuel idx → cum lens (j + 1) < e := by
  intro fuel
  induction fuel with
  | zero =>
    intro idx hb
    refine ⟨le_refl _, by simpa using hb, ?_⟩
    intro j h1 h2
    exact absurd (lt_of_le_of_lt h1 h2) (lt_irrefl idx)
  | succ fuel ih =>
    intro idx hb
    unfold advance
    by_cases hc : cum lens (idx + 1) < e
    · rw [if_pos hc]
      have hb2 : e ≤ cum lens (idx + 1 + fuel + 1) := by
        have he : idx + 1 + fuel + 1 = idx + (fuel + 1) + 1 := by omega
        rw [he]
        exact hb
      obtain ⟨h1, h2, h3⟩ := ih (idx + 1) hb2
      refine ⟨le_trans (Nat.le_succ idx) h1, h2, ?_⟩
      intro j hj1 hj2
      rcases Nat.eq_or_lt_of_le hj1 with rfl | hj1s
      · exact hc
      · exact h3 j hj1s hj2
    · rw [if_neg hc]
      refine ⟨le_refl _, not_lt.mp hc, ?_⟩
      intro j h1 h2
      exact absurd (lt_of_le_of_lt h1 h2) (lt_irrefl idx)

theorem advance_lt_length (lens : List ℚ) (e : ℚ) {idx : Nat}
    (hidx : idx < lens.length) (he : e ≤ cum lens lens.length) :
    advance lens e lens.length idx < lens.length := by
  have hb : e ≤ cum lens (idx + lens.length + 1) := by
    rw [cum_of_le lens (by omega)]
    exact he
  obtain ⟨h1, h2, h3⟩ := advance_spec lens e lens.length idx hb
  by_contra hge
  have hlt : lens.length - 1 < advance lens e lens.length idx := by omega
  have hle : idx ≤ lens.length - 1 := by omega
  have := h3 (lens.length - 1) hle hlt
  have heq : lens.length - 1 + 1 = lens.length := by omega
  rw [heq] at this
  exact absurd he (not_le.mpr this)

theorem cum_zero (lens : List ℚ) : cum lens 0 = 0 := rfl

theorem advance_zero_eq (lens : List ℚ) (e : ℚ)
    {idx : Nat} (hb : e ≤ cum lens lens.length)
    (hlow : ∀ j, j < idx → cum lens (j + 1) < e) :
    advance lens e lens.length idx = advance lens e lens.length 0 := by
  have hbi : e ≤ cum lens (idx + lens.length + 1) := by
    rw [cum_of_le lens (by omega)]
    exact hb
  have hb0 : e ≤ cum lens (0 + lens.length + 1) := by
    rw [cum_of_le lens (by omega)]
    exact hb
  obtain ⟨hi1, hi2, hi3⟩ := advance_spec lens e lens.length idx hbi
  obtain ⟨h01, h02, h03⟩ := advance_spec lens e lens.length 0 hb0
  rcases Nat.lt_trichotomy (advance lens e lens.length idx)
      (advance lens e lens.length 0) with h | h | h
  · exact absurd hi2 (not_le.mpr (h03 _ (Nat.zero_le _) h))
  · exact h
  · rcases Nat.lt_or_ge (advance lens e lens.length 0) idx with h2 | h2
    · exact absurd h02 (not_le.mpr (hlow _ h2))
    · exact absurd h02 (not_le.mpr (hi3 _ h2 h))

theorem walkLoop_eq_map (cables : List MCable) (lens : List ℚ)
    (es : List ℚ) :
    ∀ (idx : Nat),
      (∀ e ∈ es, e ≤ cum lens lens.length) →
      (∀ e ∈ es, ∀ j, j < idx → cum lens (j + 1) < e) →
      List.Pairwise (· ≤ ·) es →
      walkLoop cables lens idx es = es.map (sampleLoc cables lens) := by
  induction es with
  | nil =>
    intro idx _ _ _
    rfl
  | cons e es ih =>
    intro idx hb hlow hsort
    have hbe : e ≤ cum lens lens.length := hb e (List.mem_cons_self e es)
    have hlowe : ∀ j, j < idx → cum lens (j + 1) < e :=
      hlow e (List.mem_cons_self e es)
    have hadv : advance lens e lens.length idx =
        advance lens e lens.length 0 :=
      advance_zero_eq lens e hbe hlowe
    have hb0 : e ≤ cum lens (0 + lens.length + 1) := by
      rw [cum_of_le lens (by omega)]
      exact hbe
    obtain ⟨-, -, h03⟩ := advance_spec lens e lens.length 0 hb0
    have hhead : ∀ e2 ∈ es, e ≤ e2 := (List.pairwise_cons.mp hsort).1
    simp only [walkLoop, List.map_cons, hadv]
    refine congrArg₂ _ rfl ?_
    apply ih
    · intro e2 he2
      exact hb e2 (List.mem_cons_of_mem e he2)
    · intro e2 he2 j hj
      exact lt_of_lt_of_le (h03 j (Nat.zero_le _) hj) (hhead e2 he2)
    · exact (List.pairwise_cons.mp hsort).2

/-- Ordering between cables of a canonically-ordered extent: strictly
earlier branch, or same branch with the earlier range wholly before the
later one. -/
def CablePrec (c c2 : MCable) : Prop :=
  c.branch < c2.branch ∨ (c.branch = c2.branch ∧ c.dist ≤ c2.prox)

theorem sampleLoc_mono (cables : List MCable) (lens : List ℚ)
    (hQ : lens.length = cables.length)
    (hpos : ∀ x ∈ lens, 0 < x)
    (hpair : List.Pairwise CablePrec cables)
    (hpd : ∀ c ∈ cables, c.prox ≤ c.dist)
    (hne : 0 < lens.length)
    {e f : ℚ} (he0 : 0 ≤ e) (hef : e ≤ f) (hfT : f ≤ cum lens lens.length) :
    locLe (sampleLoc cables lens e) (sampleLoc cables lens f) := by
  have heT : e ≤ cum lens lens.length := le_trans hef hfT
  have hbe : e ≤ cum lens (0 + lens.length + 1) := by
    rw [cum_of_le lens (by omega)]
    exact heT
  have hbf : f ≤ cum lens (0 + lens.length + 1) := by
    rw [cum_of_le lens (by omega)]
    exact hfT
  obtain ⟨-, he2, he3⟩ := advance_spec lens e lens.length 0 hbe
  obtain ⟨-, hf2, hf3⟩ := advance_spec lens f lens.length 0 hbf
  have hjeL : advance lens e lens.length 0 < lens.length :=
    advance_lt_length lens e hne heT
  have hjfL : advance lens f lens.length 0 < lens.length :=
    advance_lt_length lens f hne hfT
  set je := advance lens e lens.length 0 with hje
  set jf := advance lens f lens.length 0 with hjf
  have hjeC : je < cables.length := hQ ▸ hjeL
  have hjfC : jf < cables.length := hQ ▸ hjfL
  have hjejf : je ≤ jf := by
    by_contra hlt
    have h := he3 jf (Nat.zero_le _) (Nat.lt_of_not_le hlt)
    exact absurd hf2 (not_le.mpr (lt_of_lt_of_le h hef))
  have heLow : cum lens je ≤ e := by
    rcases Nat.eq_zero_or_pos je with h0 | h0
    · rw [h0, cum_zero]
      exact he0
    · have h := he3 (je - 1) (Nat.zero_le _) (by omega)
      have heq : je - 1 + 1 = je := by omega
      rw [heq] at h
      exact le_of_lt h
  have hfLow : cum lens jf ≤ f := by
    rcases Nat.eq_zero_or_pos jf with h0 | h0
    · rw [h0, cum_zero]
      exact le_trans he0 hef
    · have h := hf3 (jf - 1) (Nat.zero_le _) (by omega)
      have heq : jf - 1 + 1 = jf := by omega
      rw [heq] at h
      exact le_of_lt h
  have hdenE : 0 < cum lens (je + 1) - cum lens je := by
    rw [cum_succ lens je hjeL]
    have := hpos _ (List.get_mem lens je hjeL)
    linarith
  have hdenF : 0 < cum lens (jf + 1) - cum lens jf := by
    rw [cum_succ lens jf hjfL]
    have := hpos _ (List.get_mem lens jf hjfL)
    linarith
  have hceD : cables.getD je ⟨0, 0, 0⟩ = cables.get ⟨je, hjeC⟩ :=
    List.getD_eq_get cables _ hjeC
  have hcfD : cables.getD jf ⟨0, 0, 0⟩ = cables.get ⟨jf, hjfC⟩ :=
    List.getD_eq_get cables _ hjfC
  have hpdE : (cables.get ⟨je, hjeC⟩).prox ≤ (cables.get ⟨je, hjeC⟩).dist :=
    hpd _ (List.get_mem cables je hjeC)
  have hpdF : (cables.get ⟨jf, hjfC⟩).prox ≤ (cables.get ⟨jf, hjfC⟩).dist :=
    hpd _ (List.get_mem cables jf hjfC)
  have hteNN : 0 ≤ (e - cum lens je) / (cum lens (je + 1) - cum lens je) :=
    div_nonneg (by linarith) (le_of_lt hdenE)
  have hte1 : (e - cum lens je) / (cum lens (je + 1) - cum lens je) ≤ 1 :=
    (div_le_one hdenE).mpr (by linarith)
  have htfNN : 0 ≤ (f - cum lens jf) / (cum lens (jf + 1) - cum lens jf) :=
    div_nonneg (by linarith) (le_of_lt hdenF)
  have htf1 : (f - cum lens jf) / (cum lens (jf + 1) - cum lens jf) ≤ 1 :=
    (div_le_one hdenF).mpr (by linarith)
  show locLe
    ⟨(cables.getD je ⟨0, 0, 0⟩).branch,
      (cables.getD je ⟨0, 0, 0⟩).prox +
        (e - cum lens je) / (cum lens (je + 1) - cum lens je) *
          ((cables.getD je ⟨0, 0, 0⟩).dist - (cables.getD je ⟨0, 0, 0⟩).prox)⟩
    ⟨(cables.getD jf ⟨0, 0, 0⟩).branch,
      (cables.getD jf ⟨0, 0, 0⟩).prox +
        (f - cum lens jf) / (cum lens (jf + 1) - cum lens jf) *
          ((cables.getD jf ⟨0, 0, 0⟩).dist - (cables.getD jf ⟨0, 0, 0⟩).prox)⟩
  rw [hceD, hcfD]
  clear_value je jf
  rcases Nat.eq_or_lt_of_le hjejf with heqj | hltj
  · subst heqj
    refine Or.inr ⟨rfl, ?_⟩
    have hnum : e - cum lens je ≤ f - cum lens je := by linarith
    have ht : (e - cum lens je) / (cum lens (je + 1) - cum lens je) ≤
        (f - cum lens je) / (cum lens (je + 1) - cum lens je) := by
      rw [div_le_div_iff hdenE hdenE]
      exact mul_le_mul_of_nonneg_right hnum (le_of_lt hdenE)
    have := mul_le_mul_of_nonneg_right ht (by linarith :
      (0 : ℚ) ≤ (cables.get ⟨je, hjeC⟩).dist - (cables.get ⟨je, hjeC⟩).prox)
    linarith
  · have hprec : CablePrec (cables.get ⟨je, hjeC⟩) (cables.get ⟨jf, hjfC⟩) :=
      List.pairwise_iff_get.mp hpair ⟨je, hjeC⟩ ⟨jf, hjfC⟩ hltj
    have hposE : (cables.get ⟨je, hjeC⟩).prox +
        (e - cum lens je) / (cum lens (je + 1) - cum lens je) *
          ((cables.get ⟨je, hjeC⟩).dist - (cables.get ⟨je, hjeC⟩).prox) ≤
        (cables.get ⟨je, hjeC⟩).dist := by
      have := mul_le_of_le_one_left (by linarith :
        (0 : ℚ) ≤ (cables.get ⟨je, hjeC⟩).dist - (cables.get ⟨je, hjeC⟩).prox)
        hte1
      linarith
    have hposF : (cables.get ⟨jf, hjfC⟩).prox ≤
        (cables.get ⟨jf, hjfC⟩).prox +
          (f - cum lens jf) / (cum lens (jf + 1) - cum lens jf) *
            ((cables.get ⟨jf, hjfC⟩).dist - (cables.get ⟨jf, hjfC⟩).prox) := by
      have := mul_nonneg htfNN (by linarith :
        (0 : ℚ) ≤ (cables.get ⟨jf, hjfC⟩).dist - (cables.get ⟨jf, hjfC⟩).prox)
      linarith
    rcases hprec with hbr | ⟨hbr, hdp⟩
    · exact Or.inl hbr
    · exact Or.inr ⟨hbr, by linarith⟩

theorem qLeB_trans_bool : ∀ a b c : ℚ,
    qLeB a b = true → qLeB b c = true → qLeB a c = true := by
  intro a b c h1 h2
  simp only [qLeB, decide_eq_true_eq] at h1 h2 ⊢
  exact le_trans h1 h2

theorem qLeB_total_bool : ∀ a b : ℚ, (qLeB a b || qLeB b a) = true := by
  intro a b
  rcases le_total a b with h | h
  · simp [qLeB, h]
  · simp [qLeB, h]

/-- Sort a list of sample positions (`util::sort` on doubles). -/
def sortQ (l : List ℚ) : List ℚ := l.mergeSort qLeB

theorem sortQ_sorted (l : List ℚ) : List.Pairwise (· ≤ ·) (sortQ l) :=
  (List.sorted_mergeSort qLeB_trans_bool qLeB_total_bool l).imp
    (fun h => by simpa [qLeB] using h)

theorem sortQ_perm (l : List ℚ) : (sortQ l).Perm l :=
  List.mergeSort_perm l qLeB

theorem sortLocs_map_concat (g : ℚ → MLoc) (A B : List ℚ) (T : ℚ)
    (hbound : ∀ x ∈ A ++ B, 0 ≤ x ∧ x ≤ T)
    (hmono : ∀ e f : ℚ, 0 ≤ e → e ≤ f → f ≤ T → locLe (g e) (g f)) :
    sortLocs ((sortQ A).map g ++ (sortQ B).map g) = (sortQ (A ++ B)).map g := by
  apply List.eq_of_perm_of_sorted (r := locLe)
  · have p1 : (sortLocs ((sortQ A).map g ++ (sortQ B).map g)).Perm
        ((sortQ A).map g ++ (sortQ B).map g) := sortLocs_perm _
    have p2 : ((sortQ A).map g ++ (sortQ B).map g).Perm
        (A.map g ++ B.map g) :=
      List.Perm.append ((sortQ_perm A).map g) ((sortQ_perm B).map g)
    have p3 : (A.map g ++ B.map g) = (A ++ B).map g :=
      (List.map_append g A B).symm
    have p4 : ((A ++ B).map g).Perm ((sortQ (A ++ B)).map g) :=
      ((sortQ_perm (A ++ B)).map g).symm
    exact ((p1.trans p2).trans (p3 ▸ List.Perm.refl _)).trans p4
  · exact sortLocs_sorted _
  · show List.Pairwise locLe ((sortQ (A ++ B)).map g)
    rw [List.pairwise_map]
    apply List.Pairwise.imp_of_mem ?_ (sortQ_sorted (A ++ B))
    intro a b ha hb hab
    have haM : a ∈ A ++ B := (sortQ_perm (A ++ B)).subset ha
    have hbM : b ∈ A ++ B := (sortQ_perm (A ++ B)).subset hb
    exact hmono a b (hbound a haM).1 hab (hbound b hbM).2

/-- C2: `uniform(reg, left, right, seed)` resolution is a pure function of
(region cables, embedding, seed, left, right) — identical arguments give
identical output — and sampling partitions over the draw-index range: the
concatenation of the `left..m` and `m+1..right` resolutions, sorted, equals
the `left..right` resolution.  Hypotheses: the region resolves to a
non-empty canonically-ordered cable list of positive lengths, and the
counter-based samples lie in [0,1). -/
theorem uniform_deterministic_partition (cables : List MCable)
    (elen : MCable → ℚ) (u : Nat → Nat → ℚ) (seed left m right : Nat)
    (hlm : left ≤ m) (hmr : m < right)
    (hcne : cables ≠ [])
    (hpos : ∀ c ∈ cables, 0 < elen c)
    (hpair : List.Pairwise CablePrec cables)
    (hpd : ∀ c ∈ cables, c.prox ≤ c.dist)
    (hu : ∀ s k, 0 ≤ u s k ∧ u s k < 1) :
    (∀ seed2 left2 right2, seed2 = seed → left2 = left → right2 = right →
      thingify_uniform cables elen u seed2 left2 right2 =
        thingify_uniform cables elen u seed left right) ∧
    sortLocs (thingify_uniform cables elen u seed left m ++
        thingify_uniform cables elen u seed (m + 1) right) =
      thingify_uniform cables elen u seed left right := by
  constructor
  · rintro seed2 left2 right2 rfl rfl rfl
    rfl
  have hlenQ : (cables.map elen).length = cables.length := List.length_map _ _
  have hlpos : ∀ x ∈ cables.map elen, 0 < x := by
    intro x hx
    obtain ⟨c, hc, rfl⟩ := List.mem_map.mp hx
    exact hpos c hc
  have hlposW : ∀ x ∈ cables.map elen, 0 ≤ x :=
    fun x hx => le_of_lt (hlpos x hx)
  have hne : 0 < (cables.map elen).length := by
    rw [hlenQ]
    exact List.length_pos.mpr hcne
  have hT0 : 0 ≤ cum (cables.map elen) (cables.map elen).length := by
    have := cum_mono (cables.map elen) hlposW (Nat.zero_le
      (cables.map elen).length)
    rw [cum_zero] at this
    exact this
  have hsmp : ∀ (a b : Nat) (x : ℚ),
      x ∈ (List.range' a b).map
        (fun k => u seed k * cum (cables.map elen) (cables.map elen).length) →
      0 ≤ x ∧ x ≤ cum (cables.map elen) (cables.map elen).length := by
    intro a b x hx
    obtain ⟨k, -, rfl⟩ := List.mem_map.mp hx
    refine ⟨mul_nonneg (hu seed k).1 hT0, ?_⟩
    exact mul_le_of_le_one_left hT0 (le_of_lt (hu seed k).2)
  have hwalk : ∀ (a b : Nat),
      thingify_uniform cables elen u seed a b =
        (sortQ ((List.range' a (b + 1 - a)).map
          (fun k => u seed k * cum (cables.map elen)
            (cables.map elen).length))).map
          (sampleLoc cables (cables.map elen)) := by
    intro a b
    show walkLoop cables (cables.map elen) 0 _ = _
    apply walkLoop_eq_map
    · intro e he
      exact (hsmp a (b + 1 - a) e ((sortQ_perm _).subset he)).2
    · intro e he j hj
      exact absurd hj (Nat.not_lt_zero j)
    · exact sortQ_sorted _
  rw [hwalk left m, hwalk (m + 1) right, hwalk left right]
  have hidx : right + 1 - (m + 1) = right - m := by omega
  rw [hidx]
  have hsplit : (List.range' left (m + 1 - left)).map
        (fun k => u seed k * cum (cables.map elen) (cables.map elen).length) ++
      (List.range' (m + 1) (right - m)).map
        (fun k => u seed k * cum (cables.map elen) (cables.map elen).length) =
      (List.range' left (right + 1 - left)).map
        (fun k => u seed k * cum (cables.map elen) (cables.map elen).length) := by
    rw [← List.map_append]
    have h1 : left + 1 * (m + 1 - left) = m + 1 := by omega
    have h2 : (right - m) + (m + 1 - left) = right + 1 - left := by omega
    have := List.range'_append left (m + 1 - left) (right - m) 1
    rw [h1] at this
    rw [this, h2]
  rw [← hsplit]
  apply sortLocs_map_concat (T := cum (cables.map elen) (cables.map elen).length)
  · intro x hx
    rw [List.mem_append] at hx
    rcases hx with hx | hx
    · exact hsmp _ _ x hx
    · exact hsmp _ _ x hx
  · intro e f he0 hef hfT
    exact sampleLoc_mono cables (cables.map elen) hlenQ hlpos hpair hpd hne
      he0 hef hfT

/-- Single whole-branch cable used to instantiate the uniform-sampling
theorem. -/
def cablesU : List MCable := [⟨0, 0, 1⟩]

theorem uniform_deterministic_partition_witness :
    sortLocs (thingify_uniform cablesU (fun _ => 1) (fun _ _ => 1/2) 0 0 0 ++
        thingify_uniform cablesU (fun _ => 1) (fun _ _ => 1/2) 0 1 1) =
      thingify_uniform cablesU (fun _ => 1) (fun _ _ => 1/2) 0 0 1 :=
  (uniform_deterministic_partition cablesU (fun _ => 1) (fun _ _ => 1/2)
    0 0 0 1 (le_refl 0) Nat.zero_lt_one (by simp [cablesU])
    (by intro c hc; norm_num)
    (by simp [cablesU])
    (by intro c hc; simp [cablesU] at hc; rw [hc]; norm_num)
    (by intro s k; norm_num)).2

end ArborSpec
